import Mathlib

/-
Verification development for the uniquelist repository.

The C++ container uniquelist<T, Compare> keeps a std::list whose nodes hold
iterators into a std::map (keyed by T, ordered by Compare) and whose map
entries hold iterators back into the list.  We embed this shallowly:

  * the map is a comparator-sorted association list of (key, link) pairs,
    where link is the id of the cross-linked list node; std::map insert,
    count and erase become linear scans over the sorted list, which agrees
    with the tree operations whenever Compare is a strict weak ordering;
  * the list is a sequence of (id, key) pairs, the id giving the node a
    stable identity (C++ iterators are stable under unrelated mutation) and
    the key recording the referent of the node's stored map iterator
    (dereferencing a node yields it->link->first, i.e. the key);
  * fresh ids are drawn from a counter nextId.

Machine doubles are modelled as exact rationals; size_t / signed index
arithmetic in the bulk erase is modelled over Int, which matches the
effective behaviour of std::advance with a bidirectional iterator.
-/

namespace Uniquelist

/-- Transitivity of a boolean strict comparator. -/
def LtTrans (lt : α → α → Bool) : Prop :=
  ∀ a b c, lt a b = true → lt b c = true → lt a c = true

/-- Irreflexivity of a boolean strict comparator. -/
def LtIrrefl (lt : α → α → Bool) : Prop :=
  ∀ a, lt a a = false

/-- Comparator equivalence: neither value is strictly below the other.
This is the equivalence std::map uses to detect duplicate keys. -/
def EquivC (lt : α → α → Bool) (a b : α) : Prop :=
  lt a b = false ∧ lt b a = false

instance (lt : α → α → Bool) (a b : α) : Decidable (EquivC lt a b) :=
  decidable_of_iff (lt a b = false ∧ lt b a = false) Iff.rfl

/-- Embedding of std::map::insert on the sorted association sequence:
walk past keys below k; if a key equivalent to k is met return its entry
(link id) with status false and the map unchanged; otherwise place (k, id)
at the sorted position and report status true. -/
def mapInsert (lt : α → α → Bool) (k : α) (id : Nat) :
    List (α × Nat) → List (α × Nat) × Nat × Bool
  | [] => ([(k, id)], id, true)
  | (a, j) :: t =>
    if lt k a then ((k, id) :: (a, j) :: t, id, true)
    else if lt a k then
      let r := mapInsert lt k id t
      ((a, j) :: r.1, r.2)
    else ((a, j) :: t, j, false)

/-- Embedding of map::emplace_hint followed by assigning the link of the
returned entry (it->second.link = newNode): if no key equivalent to k is
present, (k, id) is inserted at the sorted position; otherwise the existing
equivalent entry keeps its key but its link is overwritten with id.  The
returned value is the key of the entry the new list node will refer to. -/
def mapInsertAssign (lt : α → α → Bool) (k : α) (id : Nat) :
    List (α × Nat) → List (α × Nat) × α
  | [] => ([(k, id)], k)
  | (a, j) :: t =>
    if lt k a then ((k, id) :: (a, j) :: t, k)
    else if lt a k then
      let r := mapInsertAssign lt k id t
      ((a, j) :: r.1, r.2)
    else ((a, id) :: t, a)

/-- Erase, by iterator identity, the (unique) map entry whose link is id;
models map.erase(it) where it was just obtained from an insertion. -/
def mapEraseId (id : Nat) : List (α × Nat) → List (α × Nat)
  | [] => []
  | (a, j) :: t => if j = id then t else (a, j) :: mapEraseId id t

/-- Erase the map entry a list node points at (map.erase(it->link)); the
node records the entry's key, and live map keys are pairwise distinct, so
erasing the first entry carrying that key erases exactly the linked one. -/
def mapEraseKey [DecidableEq α] (k : α) : List (α × Nat) → List (α × Nat)
  | [] => []
  | (a, j) :: t => if a = k then t else (a, j) :: mapEraseKey k t

/-- Embedding of map::count on the sorted association sequence: walk past
keys below v, stop as soon as the next key is not below v, and report
whether that key is equivalent to v. -/
def mapCount (lt : α → α → Bool) (v : α) : List (α × Nat) → Bool
  | [] => false
  | (a, _) :: t =>
    if lt a v then mapCount lt v t
    else if lt v a then false
    else true

/-- Insert x before position n; positions past the end leave the sequence
unchanged (such an iterator cannot be formed in the C++ API). -/
def insIdx (x : α) : Nat → List α → List α
  | 0, l => x :: l
  | _ + 1, [] => []
  | n + 1, a :: t => a :: insIdx x n t

/-- State of uniquelist<T, Compare>: a fresh-id counter, the insertion
order list of (node id, key referred to by the node's map iterator), and
the comparator-sorted map of (key, id of the cross-linked list node). -/
structure UL (α : Type) where
  nextId : Nat
  list : List (Nat × α)
  map : List (α × Nat)
deriving Repr, DecidableEq

/-- Default-constructed container. -/
def emptyUL : UL α := ⟨0, [], []⟩

/-- First index of the node with the given id, as computed by
std::distance(std::begin(list), link). -/
def idxOfId : List (Nat × α) → Nat → Nat
  | [], _ => 0
  | (n, _) :: t, id => if n = id then 0 else idxOfId t id + 1

/-- Embedding of uniquelist::insert(position, val): map.insert(val, {}) and,
when the key is new, link a fresh list node at the given position; the
returned index is the distance from the list head to the linked node. -/
def insertUL [DecidableEq α] (lt : α → α → Bool) (s : UL α) (pos : Nat) (v : α) :
    UL α × Nat × Bool :=
  match mapInsert lt v s.nextId s.map with
  | (m1, _, true) =>
    let l1 := insIdx (s.nextId, v) pos s.list
    (⟨s.nextId + 1, l1, m1⟩, idxOfId l1 s.nextId, true)
  | (_, id, false) => (s, idxOfId s.list id, false)

/-- Embedding of uniquelist::push_back(val): insert before std::end. -/
def pushBackUL [DecidableEq α] (lt : α → α → Bool) (s : UL α) (v : α) :
    UL α × Nat × Bool :=
  insertUL lt s s.list.length v

/-- Embedding of uniquelist::insert_with_hook(position, val, f): tentative
map.insert(val) to learn novelty; on novelty, erase the tentative entry,
call the hook, emplace_hint the hook result next to the remembered hint and
link a fresh list node; duplicates return the existing position. -/
def insertWithHook [DecidableEq α] (lt : α → α → Bool) (s : UL α) (pos : Nat)
    (v : α) (f : α → α) : UL α × Nat × Bool :=
  match mapInsert lt v s.nextId s.map with
  | (m1, _, true) =>
    let m2 := mapEraseId s.nextId m1
    let r := mapInsertAssign lt (f v) s.nextId m2
    let l1 := insIdx (s.nextId, r.2) pos s.list
    (⟨s.nextId + 1, l1, r.1⟩, idxOfId l1 s.nextId, true)
  | (_, id, false) => (s, idxOfId s.list id, false)

/-- Embedding of uniquelist::push_back_with_hook(val, f). -/
def pushBackWithHook [DecidableEq α] (lt : α → α → Bool) (s : UL α) (v : α)
    (f : α → α) : UL α × Nat × Bool :=
  insertWithHook lt s s.list.length v f

/-- Instrumented insert_with_hook: identical control flow, and additionally
returns the list of arguments the hook was invoked on. -/
def insertWithHookTraced [DecidableEq α] (lt : α → α → Bool) (s : UL α)
    (pos : Nat) (v : α) (f : α → α) : (UL α × Nat × Bool) × List α :=
  match mapInsert lt v s.nextId s.map with
  | (m1, _, true) =>
    let m2 := mapEraseId s.nextId m1
    let r := mapInsertAssign lt (f v) s.nextId m2
    let l1 := insIdx (s.nextId, r.2) pos s.list
    ((⟨s.nextId + 1, l1, r.1⟩, idxOfId l1 s.nextId, true), [v])
  | (_, id, false) => ((s, idxOfId s.list id, false), [])

/-- Insert_with_hook with a fallible hook (none = the hook raises).  The
first component is the container state when the call finishes or when the
exception propagates; the second is the normal-return value, if any. -/
def insertWithHookE [DecidableEq α] (lt : α → α → Bool) (s : UL α) (pos : Nat)
    (v : α) (f : α → Option α) : UL α × Option (Nat × Bool) :=
  match mapInsert lt v s.nextId s.map with
  | (m1, _, true) =>
    let m2 := mapEraseId s.nextId m1
    match f v with
    | none => (⟨s.nextId, s.list, m2⟩, none)
    | some w =>
      let r := mapInsertAssign lt w s.nextId m2
      let l1 := insIdx (s.nextId, r.2) pos s.list
      (⟨s.nextId + 1, l1, r.1⟩, some (idxOfId l1 s.nextId, true))
  | (_, id, false) => (s, some (idxOfId s.list id, false))

/-- Embedding of uniquelist::erase(it) for a sequence iterator at index c:
erase the map entry the node links to, then unlink the node; the cursor
then denotes the following element, i.e. index c in the new list.  An
out-of-range cursor (unreachable through the C++ API) leaves the state
unchanged. -/
def eraseCursor [DecidableEq α] (s : UL α) (c : Nat) : UL α :=
  match s.list.get? c with
  | some (_, k) => ⟨s.nextId, s.list.eraseIdx c, mapEraseKey k s.map⟩
  | none => s

/-- Embedding of uniquelist::erase(size_t index): advance from begin. -/
def eraseAtUL [DecidableEq α] (s : UL α) (index : Nat) : UL α :=
  eraseCursor s index

/-- Loop body of uniquelist::erase(n, indexes): the cursor starts at
++begin, is advanced by indexes[i] - prev_pos - 1 (signed, as realised by
std::advance on a bidirectional iterator), and each erase leaves the cursor
on the following element. -/
def eraseBulkLoop [DecidableEq α] (s : UL α) (cursor prevPos : Int) :
    List Nat → UL α
  | [] => s
  | i :: rest =>
    let c := cursor + (i : Int) - prevPos - 1
    eraseBulkLoop (eraseCursor s c.toNat) c (i : Int) rest

/-- Embedding of uniquelist::erase(n, indexes). -/
def eraseBulkUL [DecidableEq α] (s : UL α) (idxs : List Nat) : UL α :=
  eraseBulkLoop s 1 0 idxs

/-- Loop of uniquelist::erase_nonzero(n, flag): scan the sequence once;
a truthy flag erases at the cursor (which then already denotes the next
element), a falsy flag advances the cursor. -/
def eraseNonzeroLoop [DecidableEq α] (s : UL α) (cursor : Nat) :
    List Bool → UL α
  | [] => s
  | b :: rest =>
    if b then eraseNonzeroLoop (eraseCursor s cursor) cursor rest
    else eraseNonzeroLoop s (cursor + 1) rest

/-- Embedding of uniquelist::erase_nonzero(n, flag). -/
def eraseNonzeroUL [DecidableEq α] (s : UL α) (flags : List Bool) : UL α :=
  eraseNonzeroLoop s 0 flags

/-- Embedding of uniquelist::isin(val): map.count(val) > 0. -/
def isinUL (lt : α → α → Bool) (s : UL α) (v : α) : Bool :=
  mapCount lt v s.map

/-- Embedding of uniquelist::clear(). -/
def clearUL (s : UL α) : UL α := ⟨s.nextId, [], []⟩

/-- Sequence-order contents: dereferencing each node of begin()..end()
yields the key of its linked map entry. -/
def seqValues (s : UL α) : List α := s.list.map Prod.snd

/-- Sorted-order contents: dereferencing sbegin()..send() yields the map
keys in map order. -/
def sortedValues (s : UL α) : List α := s.map.map Prod.fst

/-- Well-formed container states: map keys ascend under the comparator,
sequence nodes and map entries are cross-linked in bijection, every link
id is below the freshness counter, and node ids are pairwise distinct.
Every state reachable through the public API is well formed. -/
def WF (lt : α → α → Bool) (s : UL α) : Prop :=
  List.Chain' (fun a b => lt a b = true) (sortedValues s) ∧
  (s.list.map (fun p => (p.2, p.1))).Perm s.map ∧
  (∀ p ∈ s.map, p.2 < s.nextId) ∧
  (s.list.map Prod.fst).Nodup

/- Specification-side descriptions of the bulk erase operations -/

/-- Keep exactly the elements whose pre-call position is not listed in
idxs, preserving their relative order (positions counted from pos). -/
def removeFromPos : List α → List Nat → Nat → List α
  | [], _, _ => []
  | a :: t, idxs, pos =>
    if pos ∈ idxs then removeFromPos t idxs (pos + 1)
    else a :: removeFromPos t idxs (pos + 1)

/-- Keep exactly the elements whose flag is falsy; elements beyond the
flag array are kept (the scan stops when the flags run out). -/
def keepUnflagged : List α → List Bool → List α
  | l, [] => l
  | [], _ :: _ => []
  | a :: t, b :: fs =>
    if b then keepUnflagged t fs else a :: keepUnflagged t fs

/-- Successive single erases at current-list positions idxs[0] - j,
idxs[1] - (j+1), ...: the shape the bulk-erase cursor loop reduces to. -/
def seqErase : List α → List Nat → Nat → List α
  | l, [], _ => l
  | l, i :: rest, j => seqErase (l.eraseIdx (i - j)) rest (j + 1)

/- Operation sequences over the public mutating API -/

/-- Mutating operations of the insert and erase families. -/
inductive Op (α : Type) where
  | pushBackOp (v : α)
  | insertOp (pos : Nat) (v : α)
  | hookOp (v : α) (f : α → α)
  | eraseOp (i : Nat)
  | eraseBulkOp (idxs : List Nat)
  | eraseNonzeroOp (flags : List Bool)
  | clearOp

/-- Effect of one operation on the container state. -/
def applyOp [DecidableEq α] (lt : α → α → Bool) (s : UL α) : Op α → UL α
  | .pushBackOp v => (pushBackUL lt s v).1
  | .insertOp pos v => (insertUL lt s pos v).1
  | .hookOp v f => (pushBackWithHook lt s v f).1
  | .eraseOp i => eraseAtUL s i
  | .eraseBulkOp idxs => eraseBulkUL s idxs
  | .eraseNonzeroOp flags => eraseNonzeroUL s flags
  | .clearOp => clearUL s

/-- Run a sequence of operations. -/
def execUL [DecidableEq α] (lt : α → α → Bool) : UL α → List (Op α) → UL α
  | s, [] => s
  | s, o :: ops => execUL lt (applyOp lt s o) ops

/-- Caller obligations of one operation: a positional insert needs an
iterator into the sequence (positions 0..size), and a hook must hand back
the value it is given (deepcopy under value semantics); erase obligations
are not needed for the invariant. -/
def OpOK (s : UL α) : Op α → Prop
  | .insertOp pos _ => pos ≤ s.list.length
  | .hookOp v f => f v = v
  | _ => True

/-- A sequence of operations each of which meets its caller obligation in
the state it runs in. -/
inductive ValidSeq [DecidableEq α] (lt : α → α → Bool) : UL α → List (Op α) → Prop
  | nil (s : UL α) : ValidSeq lt s []
  | cons {s : UL α} {o : Op α} {ops : List (Op α)} :
      OpOK s o → ValidSeq lt (applyOp lt s o) ops → ValidSeq lt s (o :: ops)

/- Embedding of the comparators of sized_ptr.h -/

/-- Exact scalar comparison (std::less), over exact rationals. -/
def qlt (a b : ℚ) : Bool := decide (a < b)

/-- Embedding of strictly_less::operator()(T a, T b) for scalars: the code
returns a < b - ((b > 0) ? b : -b) * rtol - atol, with rtol and atol the
constructor parameters; machine doubles are modelled as exact rationals. -/
def strictlyLessQ (rtol atol a b : ℚ) : Bool :=
  decide (a < b - (if 0 < b then b else -b) * rtol - atol)

/-- Embedding of strictly_less::operator()(T a, T b) for an integral T
(the template accepts std::integral as well as std::floating_point) with
rtol = 0 and an integral atol: the double arithmetic
b - ((b > 0) ? b : -b) * 0.0 - atol is then exact and equals b - atol. -/
def strictlyLessZ (atol a b : ℤ) : Bool := decide (a < b - atol)

/-- Element loop shared by sized_ptr operator< and
strictly_less::operator()(sized_ptr, sized_ptr), run on buffers of equal
size: the first element strictly related by the scalar comparator in
either direction decides; if the loop finishes, the result is false. -/
def sizedLessAux (lt : α → α → Bool) : List α → List α → Bool
  | [], _ => false
  | _ :: _, [] => false
  | a :: as, b :: bs =>
    if lt a b then true
    else if lt b a then false
    else sizedLessAux lt as bs

/-- Embedding of strictly_less::operator()(sized_ptr, sized_ptr) (and of
operator< when lt is the raw scalar comparison): a buffer of smaller size
compares less, one of larger size compares greater, and buffers of equal
size are compared element by element.  A buffer is modelled as the list of
its elements, whose length is the stored size. -/
def sizedLess (lt : α → α → Bool) (l r : List α) : Bool :=
  if l.length < r.length then true
  else if r.length < l.length then false
  else sizedLessAux lt l r

/- List utilities -/

theorem insIdx_perm (x : α) : ∀ (pos : Nat) (l : List α), pos ≤ l.length →
    (insIdx x pos l).Perm (x :: l)
  | 0, l, _ => List.Perm.refl _
  | _ + 1, [], h => by simp at h
  | pos + 1, a :: t, h => by
    have ih := insIdx_perm x pos t (by simpa using h)
    exact (ih.cons a).trans (List.Perm.swap x a t)

theorem map_insIdx (f : α → β) (x : α) : ∀ (pos : Nat) (l : List α),
    (insIdx x pos l).map f = insIdx (f x) pos (l.map f)
  | 0, _ => rfl
  | _ + 1, [] => rfl
  | pos + 1, a :: t => by simp [insIdx, map_insIdx f x pos t]

theorem insIdx_length (x : α) (l : List α) : insIdx x l.length l = l ++ [x] := by
  induction l with
  | nil => rfl
  | cons a t ih => simp [insIdx, ih]

theorem eraseIdx_of_le {l : List α} {c : Nat} (h : l.length ≤ c) :
    l.eraseIdx c = l := by
  rw [List.eraseIdx_eq_take_drop_succ, List.take_of_length_le h,
    List.drop_eq_nil_of_le (by omega), List.append_nil]

theorem map_eraseIdx (f : α → β) : ∀ (l : List α) (c : Nat),
    (l.eraseIdx c).map f = (l.map f).eraseIdx c
  | [], _ => rfl
  | _ :: _, 0 => rfl
  | a :: t, c + 1 => by simp [List.eraseIdx, map_eraseIdx f t c]

theorem perm_get_cons_eraseIdx : ∀ (l : List α) (c : Nat) (h : c < l.length),
    l.Perm (l.get ⟨c, h⟩ :: l.eraseIdx c)
  | a :: t, 0, _ => List.Perm.refl _
  | a :: t, c + 1, h => by
    have ih := perm_get_cons_eraseIdx t c (by simpa using h)
    simp only [List.get_cons_succ, List.eraseIdx_cons_succ]
    exact (ih.cons a).trans (List.Perm.swap _ a _)

/- Lemmas about the embedded map operations -/

theorem mapInsert_true (lt : α → α → Bool) (k : α) (id : Nat) :
    ∀ m : List (α × Nat), (mapInsert lt k id m).2.2 = true →
      (mapInsert lt k id m).2.1 = id ∧
      (mapInsert lt k id m).1.Perm ((k, id) :: m) := by
  intro m
  induction m with
  | nil => intro _; exact ⟨rfl, List.Perm.refl _⟩
  | cons p t ih =>
    obtain ⟨a, j⟩ := p
    intro h
    cases h1 : lt k a with
    | true => simp [mapInsert, h1]
    | false =>
      cases h2 : lt a k with
      | false => simp [mapInsert, h1, h2] at h
      | true =>
        simp only [mapInsert, h1, h2, Bool.false_eq_true, if_false, if_true] at h ⊢
        obtain ⟨f1, f2⟩ := ih h
        exact ⟨f1, (f2.cons (a, j)).trans (List.Perm.swap _ _ _)⟩

theorem mapInsert_false (lt : α → α → Bool) (k : α) (id : Nat) :
    ∀ m : List (α × Nat), (mapInsert lt k id m).2.2 = false →
      (mapInsert lt k id m).1 = m ∧
      ∃ a, (a, (mapInsert lt k id m).2.1) ∈ m ∧ EquivC lt a k := by
  intro m
  induction m with
  | nil => intro h; simp [mapInsert] at h
  | cons p t ih =>
    obtain ⟨a, j⟩ := p
    intro h
    cases h1 : lt k a with
    | true => simp [mapInsert, h1] at h
    | false =>
      cases h2 : lt a k with
      | true =>
        simp only [mapInsert, h1, h2, Bool.false_eq_true, if_false, if_true] at h ⊢
        obtain ⟨f1, a0, f2, f3⟩ := ih h
        exact ⟨by rw [f1], a0, List.mem_cons_of_mem _ f2, f3⟩
      | false =>
        simp only [mapInsert, h1, h2, Bool.false_eq_true, if_false] at h ⊢
        exact ⟨trivial, a, List.mem_cons_self _ _, h2, h1⟩

theorem mapInsert_chain (lt : α → α → Bool) (k : α) (id : Nat) :
    ∀ m : List (α × Nat),
      List.Chain' (fun a b => lt a b = true) (m.map Prod.fst) →
      (mapInsert lt k id m).2.2 = true →
      List.Chain' (fun a b => lt a b = true) ((mapInsert lt k id m).1.map Prod.fst) ∧
      (∀ x, (∀ q, m.head? = some q → lt x q.1 = true) → lt x k = true →
        ∀ q, (mapInsert lt k id m).1.head? = some q → lt x q.1 = true) := by
  intro m
  induction m with
  | nil =>
    intro _ _
    refine ⟨List.chain'_singleton k, ?_⟩
    intro x _ hxk q hq
    simp only [mapInsert, List.head?_cons, Option.some.injEq] at hq
    rw [← hq]
    exact hxk
  | cons p t ih =>
    obtain ⟨a, j⟩ := p
    intro hch hst
    cases h1 : lt k a with
    | true =>
      simp only [mapInsert, h1, if_true, List.map_cons, List.head?_cons,
        Option.some.injEq]
      refine ⟨List.chain'_cons.mpr ⟨h1, by simpa using hch⟩, ?_⟩
      intro x _ hxk q hq
      rw [← hq]
      exact hxk
    | false =>
      cases h2 : lt a k with
      | false => simp [mapInsert, h1, h2] at hst
      | true =>
        simp only [mapInsert, h1, h2, Bool.false_eq_true, if_false, if_true] at hst ⊢
        have hch2 : List.Chain' (fun a b => lt a b = true) (t.map Prod.fst) :=
          (List.chain'_cons'.mp (by simpa using hch)).2
        have hhead : ∀ q, t.head? = some q → lt a q.1 = true := by
          intro q hq
          have := (List.chain'_cons'.mp (by simpa using hch)).1
          have hq' : (t.map Prod.fst).head? = some q.1 := by
            cases t with
            | nil => simp at hq
            | cons u w =>
              simp only [List.head?_cons, Option.some.injEq] at hq
              simp [← hq]
          exact this q.1 hq'
        obtain ⟨c1, c2⟩ := ih hch2 hst
        have hlink : ∀ q, (mapInsert lt k id t).1.head? = some q →
            lt a q.1 = true := c2 a hhead h2
        constructor
        · rw [List.map_cons]
          refine List.chain'_cons'.mpr ⟨?_, c1⟩
          intro y hy
          rcases hm : (mapInsert lt k id t).1 with _ | ⟨q, w⟩
          · rw [hm] at hy; simp at hy
          · rw [hm] at hy
            simp only [List.map_cons, List.head?_cons, Option.mem_def,
              Option.some.injEq] at hy
            rw [← hy]
            exact hlink q (by rw [hm]; rfl)
        · intro x hx _ q hq
          simp only [List.head?_cons, Option.some.injEq] at hq
          rw [← hq]
          exact hx (a, j) rfl

theorem mapInsert_not_found (lt : α → α → Bool) (v : α) (id : Nat)
    (htr : LtTrans lt) :
    ∀ m : List (α × Nat),
      List.Pairwise (fun p q => lt p.1 q.1 = true) m →
      (∃ p ∈ m, EquivC lt p.1 v) →
      (mapInsert lt v id m).2.2 = false := by
  intro m
  induction m with
  | nil => rintro _ ⟨p, hp, -⟩; simp at hp
  | cons p t ih =>
    obtain ⟨a, j⟩ := p
    rintro hpw ⟨q, hq, hq1, hq2⟩
    cases h1 : lt v a with
    | true =>
      exfalso
      rcases List.mem_cons.mp hq with rfl | hq'
      · simp only at hq2
        rw [hq2] at h1
        exact Bool.false_ne_true h1
      · have haq : lt a q.1 = true := (List.pairwise_cons.mp hpw).1 q hq'
        have : lt v q.1 = true := htr v a q.1 h1 haq
        rw [hq2] at this
        exact Bool.false_ne_true this
    | false =>
      cases h2 : lt a v with
      | false => simp [mapInsert, h1, h2]
      | true =>
        simp only [mapInsert, h1, h2, Bool.false_eq_true, if_false, if_true]
        refine ih (List.pairwise_cons.mp hpw).2 ⟨q, ?_, hq1, hq2⟩
        rcases List.mem_cons.mp hq with rfl | hq'
        · simp only at hq1
          rw [hq1] at h2
          exact absurd h2 (by simp)
        · exact hq'

theorem mapEraseId_mapInsert (lt : α → α → Bool) (k : α) (id : Nat) :
    ∀ m : List (α × Nat), (∀ p ∈ m, p.2 ≠ id) →
      (mapInsert lt k id m).2.2 = true →
      mapEraseId id (mapInsert lt k id m).1 = m := by
  intro m
  induction m with
  | nil => intro _ _; simp [mapInsert, mapEraseId]
  | cons p t ih =>
    obtain ⟨a, j⟩ := p
    intro hfresh hst
    cases h1 : lt k a with
    | true => simp [mapInsert, h1, mapEraseId]
    | false =>
      cases h2 : lt a k with
      | false => simp [mapInsert, h1, h2] at hst
      | true =>
        simp only [mapInsert, h1, h2, Bool.false_eq_true, if_false, if_true] at hst ⊢
        have hj : j ≠ id := hfresh (a, j) (List.mem_cons_self _ _)
        simp only [mapEraseId, hj, if_false]
        rw [ih (fun p hp => hfresh p (List.mem_cons_of_mem _ hp)) hst]

theorem mapInsertAssign_of_true (lt : α → α → Bool) (k : α) (id : Nat) :
    ∀ m : List (α × Nat), (mapInsert lt k id m).2.2 = true →
      mapInsertAssign lt k id m = ((mapInsert lt k id m).1, k) := by
  intro m
  induction m with
  | nil => intro _; rfl
  | cons p t ih =>
    obtain ⟨a, j⟩ := p
    intro hst
    cases h1 : lt k a with
    | true => simp [mapInsert, mapInsertAssign, h1]
    | false =>
      cases h2 : lt a k with
      | false => simp [mapInsert, h1, h2] at hst
      | true =>
        simp only [mapInsert, h1, h2, Bool.false_eq_true, if_false, if_true] at hst
        simp [mapInsert, mapInsertAssign, h1, h2, ih hst]

theorem mapInsert_true_of_no_equiv (lt : α → α → Bool) (k : α) (id : Nat) :
    ∀ m : List (α × Nat), (∀ p ∈ m, ¬ EquivC lt p.1 k) →
      (mapInsert lt k id m).2.2 = true := by
  intro m
  induction m with
  | nil => intro _; rfl
  | cons p t ih =>
    obtain ⟨a, j⟩ := p
    intro hne
    cases h1 : lt k a with
    | true => simp [mapInsert, h1]
    | false =>
      cases h2 : lt a k with
      | false => exact absurd ⟨h2, h1⟩ (hne (a, j) (List.mem_cons_self _ _))
      | true =>
        simp only [mapInsert, h1, h2, Bool.false_eq_true, if_false, if_true]
        exact ih fun p hp => hne p (List.mem_cons_of_mem _ hp)

theorem mapEraseKey_sublist [DecidableEq α] (k : α) :
    ∀ m : List (α × Nat), (mapEraseKey k m).Sublist m := by
  intro m
  induction m with
  | nil => exact List.Sublist.refl _
  | cons p t ih =>
    obtain ⟨a, j⟩ := p
    by_cases h : a = k
    · simp only [mapEraseKey, h, if_true]
      exact (List.sublist_cons_self _ _)
    · simp only [mapEraseKey, h, if_false]
      exact ih.cons₂ _

theorem mapEraseKey_perm [DecidableEq α] (lt : α → α → Bool) (k : α) (n : Nat)
    (hirr : LtIrrefl lt) :
    ∀ m : List (α × Nat),
      List.Pairwise (fun p q => lt p.1 q.1 = true) m →
      (k, n) ∈ m →
      m.Perm ((k, n) :: mapEraseKey k m) := by
  intro m
  induction m with
  | nil => intro _ h; simp at h
  | cons p t ih =>
    obtain ⟨a, j⟩ := p
    intro hpw hmem
    by_cases h : a = k
    · subst h
      have : (a, n) = (a, j) := by
        rcases List.mem_cons.mp hmem with h' | h'
        · exact h'
        · exfalso
          have : lt a a = true := (List.pairwise_cons.mp hpw).1 (a, n) h'
          rw [hirr a] at this
          exact Bool.false_ne_true this
      rw [Prod.mk.injEq] at this
      rw [this.2]
      simp [mapEraseKey]
    · have hmem' : (k, n) ∈ t := by
        rcases List.mem_cons.mp hmem with h' | h'
        · exact absurd (congrArg Prod.fst h').symm h
        · exact h'
      simp only [mapEraseKey, h, if_false]
      exact ((ih (List.pairwise_cons.mp hpw).2 hmem').cons (a, j)).trans
        (List.Perm.swap _ _ _)

theorem mapCount_iff (lt : α → α → Bool) (v : α) (htr : LtTrans lt) :
    ∀ m : List (α × Nat),
      List.Pairwise (fun p q => lt p.1 q.1 = true) m →
      (mapCount lt v m = true ↔ ∃ p ∈ m, EquivC lt p.1 v) := by
  intro m
  induction m with
  | nil => intro _; simp [mapCount]
  | cons p t ih =>
    obtain ⟨a, j⟩ := p
    intro hpw
    cases h1 : lt a v with
    | true =>
      simp only [mapCount, h1, if_true]
      rw [ih (List.pairwise_cons.mp hpw).2]
      constructor
      · rintro ⟨q, hq, he⟩
        exact ⟨q, List.mem_cons_of_mem _ hq, he⟩
      · rintro ⟨q, hq, he⟩
        rcases List.mem_cons.mp hq with rfl | hq'
        · exfalso
          simp only at he
          rw [he.1] at h1
          exact Bool.false_ne_true h1
        · exact ⟨q, hq', he⟩
    | false =>
      cases h2 : lt v a with
      | true =>
        simp only [mapCount, h1, h2, Bool.false_eq_true, if_false, if_true]
        constructor
        · intro h; exact absurd h (by simp)
        · rintro ⟨q, hq, he⟩
          exfalso
          rcases List.mem_cons.mp hq with rfl | hq'
          · simp only at he
            rw [he.2] at h2
            exact Bool.false_ne_true h2
          · have haq : lt a q.1 = true := (List.pairwise_cons.mp hpw).1 q hq'
            have : lt v q.1 = true := htr v a q.1 h2 haq
            rw [he.2] at this
            exact Bool.false_ne_true this
      | false =>
        simp only [mapCount, h1, h2, Bool.false_eq_true, if_false]
        constructor
        · intro _; exact ⟨(a, j), List.mem_cons_self _ _, h1, h2⟩
        · intro _; trivial

/- Lemmas about idxOfId, the embedded std::distance computation -/

theorem idxOfId_append (id : Nat) (v : α) :
    ∀ l : List (Nat × α), (∀ p ∈ l, p.1 ≠ id) →
      idxOfId (l ++ [(id, v)]) id = l.length := by
  intro l
  induction l with
  | nil => intro _; simp [idxOfId]
  | cons p t ih =>
    obtain ⟨n, a⟩ := p
    intro hfr
    have hn : n ≠ id := hfr (n, a) (List.mem_cons_self _ _)
    simp only [List.cons_append, idxOfId, hn, if_false, List.length_cons]
    rw [List.append_eq, ih fun p hp => hfr p (List.mem_cons_of_mem _ hp)]

theorem idxOfId_mem (n : Nat) (a : α) :
    ∀ l : List (Nat × α), (l.map Prod.fst).Nodup → (n, a) ∈ l →
      ∃ h : idxOfId l n < l.length, l.get ⟨idxOfId l n, h⟩ = (n, a) := by
  intro l
  induction l with
  | nil => intro _ h; simp at h
  | cons p t ih =>
    obtain ⟨m0, b⟩ := p
    intro hnd hmem
    by_cases h : m0 = n
    · subst h
      have : b = a := by
        rcases List.mem_cons.mp hmem with h' | h'
        · exact (Prod.mk.injEq _ _ _ _ ▸ h').2.symm
        · exfalso
          have : m0 ∈ t.map Prod.fst := List.mem_map.mpr ⟨(m0, a), h', rfl⟩
          exact (List.nodup_cons.mp (by simpa using hnd)).1 this
      subst this
      exact ⟨by simp [idxOfId], by simp [idxOfId]⟩
    · have hmem' : (n, a) ∈ t := by
        rcases List.mem_cons.mp hmem with h' | h'
        · exact absurd (congrArg Prod.fst h').symm h
        · exact h'
      obtain ⟨hlt, hget⟩ := ih (List.nodup_cons.mp (by simpa using hnd)).2 hmem'
      refine ⟨by simp [idxOfId, h]; omega, ?_⟩
      simp only [idxOfId, h, if_false]
      rw [List.get_cons_succ]
      exact hget

/- Observational equality of insert_with_hook and insert for hooks that
return their argument unchanged (deepcopy does, under value semantics). -/

theorem insertWithHook_eq_insertUL [DecidableEq α] (lt : α → α → Bool)
    (s : UL α) (pos : Nat) (v : α) (f : α → α)
    (hfresh : ∀ p ∈ s.map, p.2 ≠ s.nextId) (hf : f v = v) :
    insertWithHook lt s pos v f = insertUL lt s pos v := by
  rcases hm : mapInsert lt v s.nextId s.map with ⟨m1, i, st⟩
  cases st with
  | false => simp only [insertWithHook, insertUL, hm]
  | true =>
    have h2 : (mapInsert lt v s.nextId s.map).2.2 = true := by rw [hm]
    have he : mapEraseId s.nextId m1 = s.map := by
      have := mapEraseId_mapInsert lt v s.nextId s.map hfresh h2
      rw [hm] at this
      exact this
    have ha : mapInsertAssign lt v s.nextId s.map = (m1, v) := by
      have := mapInsertAssign_of_true lt v s.nextId s.map h2
      rw [hm] at this
      exact this
    simp only [insertWithHook, insertUL, hm, he, hf, ha]

/- Preservation of well-formedness by each operation -/

theorem WF_empty (lt : α → α → Bool) : WF lt (emptyUL : UL α) := by
  refine ⟨List.chain'_nil, ?_, by simp [emptyUL], by simp [emptyUL]⟩
  simp [emptyUL, sortedValues]

theorem WF_insertUL [DecidableEq α] (lt : α → α → Bool) (s : UL α)
    (pos : Nat) (v : α) (hwf : WF lt s) (hpos : pos ≤ s.list.length) :
    WF lt (insertUL lt s pos v).1 := by
  obtain ⟨hch, hperm, hfr, hnd⟩ := hwf
  rcases hm : mapInsert lt v s.nextId s.map with ⟨m1, i, st⟩
  cases st with
  | false =>
    simp only [insertUL, hm]
    exact ⟨hch, hperm, hfr, hnd⟩
  | true =>
    have h2 : (mapInsert lt v s.nextId s.map).2.2 = true := by rw [hm]
    have hp : m1.Perm ((v, s.nextId) :: s.map) := by
      have := (mapInsert_true lt v s.nextId s.map h2).2
      rw [hm] at this
      exact this
    have hchain : List.Chain' (fun a b => lt a b = true) (m1.map Prod.fst) := by
      have := (mapInsert_chain lt v s.nextId s.map hch h2).1
      rw [hm] at this
      exact this
    have hids : ∀ n ∈ s.list.map Prod.fst, n < s.nextId := by
      intro n hn
      obtain ⟨p, hpmem, hpn⟩ := List.mem_map.mp hn
      have : (p.2, p.1) ∈ s.map :=
        hperm.mem_iff.mp (List.mem_map.mpr ⟨p, hpmem, rfl⟩)
      have := hfr (p.2, p.1) this
      simpa [hpn] using this
    simp only [insertUL, hm]
    refine ⟨hchain, ?_, ?_, ?_⟩
    · have e1 : ((insIdx (s.nextId, v) pos s.list).map
          (fun p => (p.2, p.1))).Perm ((v, s.nextId) :: s.list.map (fun p => (p.2, p.1))) := by
        rw [map_insIdx]
        exact insIdx_perm _ pos _ (by simpa using hpos)
      exact (e1.trans (hperm.cons _)).trans hp.symm
    · intro p hpm
      show p.2 < s.nextId + 1
      have : p ∈ (v, s.nextId) :: s.map := hp.mem_iff.mp hpm
      rcases List.mem_cons.mp this with rfl | hin
      · simp
      · have := hfr p hin
        omega
    · have e1 : ((insIdx (s.nextId, v) pos s.list).map Prod.fst).Perm
          (s.nextId :: s.list.map Prod.fst) := by
        rw [map_insIdx]
        exact insIdx_perm _ pos _ (by simpa using hpos)
      rw [e1.nodup_iff]
      refine List.nodup_cons.mpr ⟨?_, hnd⟩
      intro hmem
      exact absurd (hids s.nextId hmem) (by omega)

theorem WF_eraseCursor [DecidableEq α] (lt : α → α → Bool) (s : UL α) (c : Nat)
    (htr : LtTrans lt) (hirr : LtIrrefl lt) (hwf : WF lt s) :
    WF lt (eraseCursor s c) := by
  obtain ⟨hch, hperm, hfr, hnd⟩ := hwf
  rcases hg : s.list.get? c with _ | ⟨n, k⟩
  · simp only [eraseCursor, hg]
    exact ⟨hch, hperm, hfr, hnd⟩
  · simp only [eraseCursor, hg]
    obtain ⟨hclt, hget⟩ := List.get?_eq_some.mp hg
    haveI : IsTrans α (fun a b => lt a b = true) := ⟨htr⟩
    have hpw : List.Pairwise (fun p q : α × Nat => lt p.1 q.1 = true) s.map :=
      List.pairwise_map.mp (List.chain'_iff_pairwise.mp hch)
    have hkmem : (k, n) ∈ s.map := by
      refine hperm.mem_iff.mp (List.mem_map.mpr ⟨(n, k), ?_, rfl⟩)
      rw [← hget]
      exact List.get_mem _ _ _
    have hme := mapEraseKey_perm lt k n hirr s.map hpw hkmem
    have hsub := mapEraseKey_sublist (α := α) k s.map
    refine ⟨?_, ?_, ?_, ?_⟩
    · exact List.chain'_iff_pairwise.mpr
        (List.pairwise_map.mpr ((List.pairwise_map.mp
          (List.chain'_iff_pairwise.mp hch)).sublist hsub))
    · have e1 : (s.list.map fun p => (p.2, p.1)).Perm
          ((k, n) :: (s.list.eraseIdx c).map fun p => (p.2, p.1)) := by
        have := (perm_get_cons_eraseIdx s.list c hclt).map (fun p => (p.2, p.1))
        rw [hget] at this
        simpa [map_eraseIdx] using this
      exact (List.perm_cons (k, n)).mp ((e1.symm.trans hperm).trans hme)
    · intro p hpm
      exact hfr p (hsub.subset hpm)
    · rw [map_eraseIdx]
      exact hnd.sublist (List.eraseIdx_sublist _ c)

theorem WF_eraseBulkLoop [DecidableEq α] (lt : α → α → Bool)
    (htr : LtTrans lt) (hirr : LtIrrefl lt) :
    ∀ (idxs : List Nat) (s : UL α) (cursor prevPos : Int), WF lt s →
      WF lt (eraseBulkLoop s cursor prevPos idxs) := by
  intro idxs
  induction idxs with
  | nil => intro s _ _ hwf; exact hwf
  | cons i rest ih =>
    intro s cursor prevPos hwf
    exact ih _ _ _ (WF_eraseCursor lt s _ htr hirr hwf)

theorem WF_eraseNonzeroLoop [DecidableEq α] (lt : α → α → Bool)
    (htr : LtTrans lt) (hirr : LtIrrefl lt) :
    ∀ (flags : List Bool) (s : UL α) (cursor : Nat), WF lt s →
      WF lt (eraseNonzeroLoop s cursor flags) := by
  intro flags
  induction flags with
  | nil => intro s _ hwf; exact hwf
  | cons b rest ih =>
    intro s cursor hwf
    cases b with
    | true => exact ih _ _ (WF_eraseCursor lt s _ htr hirr hwf)
    | false => exact ih _ _ hwf

theorem WF_applyOp [DecidableEq α] (lt : α → α → Bool) (s : UL α) (o : Op α)
    (htr : LtTrans lt) (hirr : LtIrrefl lt) (hwf : WF lt s) (hok : OpOK s o) :
    WF lt (applyOp lt s o) := by
  cases o with
  | pushBackOp v => exact WF_insertUL lt s _ v hwf (le_refl _)
  | insertOp pos v => exact WF_insertUL lt s pos v hwf hok
  | hookOp v f =>
    have hfresh : ∀ p ∈ s.map, p.2 ≠ s.nextId := by
      intro p hp
      have := hwf.2.2.1 p hp
      omega
    show WF lt (pushBackWithHook lt s v f).1
    unfold pushBackWithHook
    rw [insertWithHook_eq_insertUL lt s _ v f hfresh hok]
    exact WF_insertUL lt s _ v hwf (le_refl _)
  | eraseOp i => exact WF_eraseCursor lt s i htr hirr hwf
  | eraseBulkOp idxs => exact WF_eraseBulkLoop lt htr hirr idxs s 1 0 hwf
  | eraseNonzeroOp flags => exact WF_eraseNonzeroLoop lt htr hirr flags s 0 hwf
  | clearOp =>
    show WF lt (clearUL s)
    refine ⟨List.chain'_nil, ?_, by simp [clearUL], by simp [clearUL]⟩
    simp [clearUL, sortedValues]

theorem removeFromPos_nil : ∀ (l : List α) (p : Nat),
    removeFromPos l [] p = l := by
  intro l
  induction l with
  | nil => intro _; rfl
  | cons a t ih => intro p; simp [removeFromPos, ih]

theorem removeFromPos_head_lt : ∀ (t : List α) (i : Nat) (rest : List Nat)
    (p : Nat), i < p → removeFromPos t (i :: rest) p = removeFromPos t rest p := by
  intro t
  induction t with
  | nil => intro _ _ _ _; rfl
  | cons a t ih =>
    intro i rest p hip
    have hpi : ¬(p = i) := by omega
    simp only [removeFromPos, List.mem_cons, hpi, false_or,
      ih i rest (p + 1) (by omega)]

theorem removeFromPos_eraseIdx : ∀ (l : List α) (i j : Nat) (rest : List Nat),
    j ≤ i → i - j < l.length → (∀ x ∈ rest, i < x) →
    removeFromPos l (i :: rest) j =
      removeFromPos (l.eraseIdx (i - j)) rest (j + 1) := by
  intro l
  induction l with
  | nil => intro i j rest _ h _; simp at h
  | cons a t ih =>
    intro i j rest hji hlen hrest
    by_cases hij : i = j
    · subst hij
      rw [Nat.sub_self, List.eraseIdx_cons_zero]
      have hmem : i ∈ i :: rest := List.mem_cons_self _ _
      simp only [removeFromPos, hmem, if_true]
      exact removeFromPos_head_lt t i rest (i + 1) (by omega)
    · have hsub : i - j = (i - (j + 1)) + 1 := by omega
      rw [hsub, List.eraseIdx_cons_succ]
      have hj1 : ¬(j = i) := by omega
      have hj2 : j ∉ rest := fun h => absurd (hrest j h) (by omega)
      have hj3 : j + 1 ∉ rest := fun h => absurd (hrest (j + 1) h) (by omega)
      simp only [removeFromPos, List.mem_cons, hj1, hj2, hj3, false_or,
        if_false]
      rw [ih i (j + 1) rest (by omega)
        (by simp only [List.length_cons] at hlen; omega) hrest]

theorem seqErase_eq_removeFromPos : ∀ (idxs : List Nat) (l : List α) (j : Nat),
    List.Chain' (· < ·) idxs → (∀ x ∈ idxs, j ≤ x) →
    (∀ x ∈ idxs, x < l.length + j) →
    seqErase l idxs j = removeFromPos l idxs j := by
  intro idxs
  induction idxs with
  | nil => intro l j _ _ _; rw [seqErase, removeFromPos_nil]
  | cons i rest ih =>
    intro l j hch hlb hub
    have hrest : ∀ x ∈ rest, i < x := by
      have := List.chain'_iff_pairwise.mp hch
      exact (List.pairwise_cons.mp this).1
    have hji : j ≤ i := hlb i (List.mem_cons_self _ _)
    have hil : i - j < l.length := by
      have := hub i (List.mem_cons_self _ _)
      omega
    rw [seqErase, removeFromPos_eraseIdx l i j rest hji hil hrest]
    refine ih (l.eraseIdx (i - j)) (j + 1) hch.tail ?_ ?_
    · intro x hx
      have := hrest x hx
      omega
    · intro x hx
      have h1 := hub x (List.mem_cons_of_mem _ hx)
      rw [List.length_eraseIdx]
      simp only [hil, if_true]
      omega

theorem eraseCursor_list [DecidableEq α] (s : UL α) (c : Nat) :
    (eraseCursor s c).list = s.list.eraseIdx c := by
  rcases hg : s.list.get? c with _ | p
  · simp only [eraseCursor, hg]
    rw [eraseIdx_of_le (List.get?_eq_none.mp hg)]
  · obtain ⟨n, k⟩ := p
    simp only [eraseCursor, hg]

theorem eraseBulkLoop_list [DecidableEq α] :
    ∀ (idxs : List Nat) (s : UL α) (p j : Nat) (cursor prevPos : Int),
      cursor = (p : Int) + 1 - (j : Int) → prevPos = (p : Int) →
      (∀ x ∈ idxs, j ≤ x) → List.Chain' (· < ·) idxs →
      (eraseBulkLoop s cursor prevPos idxs).list = seqErase s.list idxs j := by
  intro idxs
  induction idxs with
  | nil => intro s p j cursor prevPos _ _ _ _; rfl
  | cons i rest ih =>
    intro s p j cursor prevPos hcur hprev hlb hch
    have hji : j ≤ i := hlb i (List.mem_cons_self _ _)
    have hc : cursor + (i : Int) - prevPos - 1 = ((i - j : Nat) : Int) := by
      subst hcur hprev
      omega
    simp only [eraseBulkLoop, hc, Int.toNat_natCast]
    rw [seqErase]
    have hrest : ∀ x ∈ rest, i < x :=
      (List.pairwise_cons.mp (List.chain'_iff_pairwise.mp hch)).1
    rw [← eraseCursor_list s (i - j)]
    refine ih (eraseCursor s (i - j)) i (j + 1) _ _ (by omega) rfl ?_ hch.tail
    intro x hx
    have := hrest x hx
    omega

theorem eraseBulkUL_list [DecidableEq α] (s : UL α) (idxs : List Nat)
    (hch : List.Chain' (· < ·) idxs)
    (hub : ∀ x ∈ idxs, x < s.list.length) :
    (eraseBulkUL s idxs).list = removeFromPos s.list idxs 0 := by
  unfold eraseBulkUL
  rw [eraseBulkLoop_list idxs s 0 0 1 0 (by norm_num) (by norm_num)
    (fun x _ => Nat.zero_le x) hch]
  rw [seqErase_eq_removeFromPos idxs s.list 0 hch (fun x _ => Nat.zero_le x)
    (by simpa using hub)]

theorem keepUnflagged_nil_left : ∀ flags : List Bool,
    keepUnflagged ([] : List α) flags = [] := by
  intro flags
  cases flags with
  | nil => rfl
  | cons b fs => rfl

theorem eraseNonzeroLoop_list [DecidableEq α] :
    ∀ (flags : List Bool) (s : UL α) (c : Nat),
      (eraseNonzeroLoop s c flags).list =
        s.list.take c ++ keepUnflagged (s.list.drop c) flags := by
  intro flags
  induction flags with
  | nil =>
    intro s c
    show s.list = _
    rw [keepUnflagged, List.take_append_drop]
  | cons b fs ih =>
    intro s c
    by_cases hc : c < s.list.length
    · have hdrop := List.drop_eq_get_cons hc
      have htake : (s.list.take c).length = c := by
        rw [List.length_take]
        omega
      cases b with
      | true =>
        show (eraseNonzeroLoop (eraseCursor s c) c fs).list = _
        rw [ih (eraseCursor s c) c, eraseCursor_list,
          List.eraseIdx_eq_take_drop_succ]
        rw [List.take_left' (by rw [List.length_take]; omega),
          List.drop_left' (by rw [List.length_take]; omega)]
        rw [hdrop]
        rfl
      | false =>
        show (eraseNonzeroLoop s (c + 1) fs).list = _
        rw [ih s (c + 1), hdrop]
        show _ = s.list.take c ++ s.list.get ⟨c, hc⟩ :: keepUnflagged (s.list.drop (c + 1)) fs
        rw [List.take_succ, List.getElem?_eq_getElem hc]
        simp only [Option.toList_some, List.append_assoc, List.singleton_append]
        rfl
    · have hle : s.list.length ≤ c := by omega
      have htake : s.list.take c = s.list := List.take_of_length_le hle
      have hdrop : s.list.drop c = [] := List.drop_eq_nil_of_le hle
      have hoob : eraseCursor s c = s := by
        have : s.list.get? c = none := List.get?_eq_none.mpr hle
        simp only [eraseCursor, this]
      cases b with
      | true =>
        show (eraseNonzeroLoop (eraseCursor s c) c fs).list = _
        rw [hoob, ih s c, htake, hdrop, keepUnflagged_nil_left,
          keepUnflagged_nil_left]
      | false =>
        show (eraseNonzeroLoop s (c + 1) fs).list = _
        rw [ih s (c + 1), hdrop, keepUnflagged_nil_left,
          List.take_of_length_le (by omega), htake,
          List.drop_eq_nil_of_le (by omega : s.list.length ≤ c + 1),
          keepUnflagged_nil_left]

theorem eraseNonzeroUL_list [DecidableEq α] (s : UL α) (flags : List Bool) :
    (eraseNonzeroUL s flags).list = keepUnflagged s.list flags := by
  unfold eraseNonzeroUL
  rw [eraseNonzeroLoop_list flags s 0]
  simp

theorem eraseNonzeroLoop_all_false [DecidableEq α] :
    ∀ (n : Nat) (s : UL α) (c : Nat),
      eraseNonzeroLoop s c (List.replicate n false) = s := by
  intro n
  induction n with
  | zero => intro s c; rfl
  | succ n ih =>
    intro s c
    show eraseNonzeroLoop s (c + 1) (List.replicate n false) = s
    exact ih s (c + 1)

theorem keepUnflagged_all_true : ∀ l : List α,
    keepUnflagged l (List.replicate l.length true) = [] := by
  intro l
  induction l with
  | nil => rfl
  | cons a t ih =>
    show keepUnflagged (a :: t) (true :: List.replicate t.length true) = []
    simp only [keepUnflagged, if_true]
    exact ih

theorem WF_execUL [DecidableEq α] (lt : α → α → Bool)
    (htr : LtTrans lt) (hirr : LtIrrefl lt) :
    ∀ (ops : List (Op α)) (s : UL α), ValidSeq lt s ops → WF lt s →
      WF lt (execUL lt s ops) := by
  intro ops
  induction ops with
  | nil => intro s _ hwf; exact hwf
  | cons o rest ih =>
    intro s hv hwf
    cases hv with
    | cons hok hv2 =>
      exact ih _ hv2 (WF_applyOp lt s o htr hirr hwf hok)

/- Comparator lemmas -/

theorem strictlyLessQ_iff (rtol atol a b : ℚ) :
    strictlyLessQ rtol atol a b = true ↔ a < b - |b| * rtol - atol := by
  by_cases hb : 0 < b
  · simp only [strictlyLessQ, if_pos hb, decide_eq_true_eq, abs_of_pos hb]
  · simp only [strictlyLessQ, if_neg hb, decide_eq_true_eq,
      abs_of_nonpos (le_of_not_lt hb)]

theorem sizedLessAux_iff (lt : α → α → Bool) :
    ∀ l r : List α, l.length = r.length →
      (sizedLessAux lt l r = true ↔
        ∃ (i : Nat) (hl : i < l.length) (hr : i < r.length),
          lt (l.get ⟨i, hl⟩) (r.get ⟨i, hr⟩) = true ∧
          ∀ (j : Nat) (hl2 : j < l.length) (hr2 : j < r.length), j < i →
            lt (l.get ⟨j, hl2⟩) (r.get ⟨j, hr2⟩) = false ∧
            lt (r.get ⟨j, hr2⟩) (l.get ⟨j, hl2⟩) = false) := by
  intro l
  induction l with
  | nil =>
    intro r hlen
    have : r = [] := by
      cases r with
      | nil => rfl
      | cons b bs => simp at hlen
    subst this
    simp [sizedLessAux]
  | cons a as ih =>
    intro r hlen
    cases r with
    | nil => simp at hlen
    | cons b bs =>
      have hlen2 : as.length = bs.length := by simpa using hlen
      cases h1 : lt a b with
      | true =>
        simp only [sizedLessAux, h1, if_true, true_iff]
        refine ⟨0, by simp, by simp, h1, ?_⟩
        intro j _ _ hj
        exact absurd hj (by omega)
      | false =>
        cases h2 : lt b a with
        | true =>
          simp only [sizedLessAux, h1, h2, Bool.false_eq_true, if_false,
            if_true, false_iff]
          rintro ⟨i, hl, hr, hlt, hmin⟩
          cases i with
          | zero =>
            have : lt a b = true := hlt
            rw [h1] at this
            exact Bool.false_ne_true this
          | succ i =>
            have : lt b a = false :=
              (hmin 0 (by simp) (by simp) (by omega)).2
            rw [h2] at this
            exact absurd this (by simp)
        | false =>
          simp only [sizedLessAux, h1, h2, Bool.false_eq_true, if_false]
          rw [ih bs hlen2]
          constructor
          · rintro ⟨i, hl, hr, hlt, hmin⟩
            refine ⟨i + 1, by simp only [List.length_cons]; omega,
              by simp only [List.length_cons]; omega, ?_, ?_⟩
            · simp only [List.get_cons_succ]
              exact hlt
            · intro j hl2 hr2 hj
              cases j with
              | zero => exact ⟨h1, h2⟩
              | succ j =>
                simp only [List.get_cons_succ]
                exact hmin j (by simp only [List.length_cons] at hl2; omega)
                  (by simp only [List.length_cons] at hr2; omega) (by omega)
          · rintro ⟨i, hl, hr, hlt, hmin⟩
            cases i with
            | zero =>
              have : lt a b = true := hlt
              rw [h1] at this
              exact absurd this (by simp)
            | succ i =>
              refine ⟨i, by simp only [List.length_cons] at hl; omega,
                by simp only [List.length_cons] at hr; omega, ?_, ?_⟩
              · have := hlt
                simp only [List.get_cons_succ] at this
                exact this
              · intro j hl2 hr2 hj
                have := hmin (j + 1) (by simp only [List.length_cons]; omega)
                  (by simp only [List.length_cons]; omega) (by omega)
                simp only [List.get_cons_succ] at this
                exact this

/- Characterization of push_back -/

theorem pushBackUL_new [DecidableEq α] (lt : α → α → Bool) (s : UL α) (v : α)
    (hwf : WF lt s) (hnone : ∀ p ∈ s.list, ¬ EquivC lt p.2 v) :
    (pushBackUL lt s v).1.list = s.list ++ [(s.nextId, v)] ∧
    (pushBackUL lt s v).2 = (s.list.length, true) := by
  obtain ⟨hch, hperm, hfr, hnd⟩ := hwf
  have hnomap : ∀ p ∈ s.map, ¬ EquivC lt p.1 v := by
    intro p hp
    have : p ∈ s.list.map (fun q => (q.2, q.1)) := hperm.mem_iff.mpr hp
    obtain ⟨q, hq, hqe⟩ := List.mem_map.mp this
    have he : q.2 = p.1 := congrArg Prod.fst hqe
    rw [← he]
    exact hnone q hq
  have hst := mapInsert_true_of_no_equiv lt v s.nextId s.map hnomap
  rcases hm : mapInsert lt v s.nextId s.map with ⟨m1, i, st⟩
  rw [hm] at hst
  simp only at hst
  subst hst
  have hidfr : ∀ p ∈ s.list, p.1 ≠ s.nextId := by
    intro p hp
    have : (p.2, p.1) ∈ s.map :=
      hperm.mem_iff.mp (List.mem_map.mpr ⟨p, hp, rfl⟩)
    have := hfr (p.2, p.1) this
    simp only at this
    omega
  simp only [pushBackUL, insertUL, hm, insIdx_length]
  simp [idxOfId_append s.nextId v s.list hidfr]

theorem pushBackUL_dup [DecidableEq α] (lt : α → α → Bool) (s : UL α) (v : α)
    (htr : LtTrans lt) (hwf : WF lt s)
    (hsome : ∃ p ∈ s.list, EquivC lt p.2 v) :
    (pushBackUL lt s v).1 = s ∧ (pushBackUL lt s v).2.2 = false ∧
    ∃ h : (pushBackUL lt s v).2.1 < s.list.length,
      EquivC lt (s.list.get ⟨(pushBackUL lt s v).2.1, h⟩).2 v := by
  obtain ⟨hch, hperm, hfr, hnd⟩ := hwf
  obtain ⟨q, hq, hqe⟩ := hsome
  haveI : IsTrans α (fun a b => lt a b = true) := ⟨htr⟩
  have hpw : List.Pairwise (fun p q : α × Nat => lt p.1 q.1 = true) s.map :=
    List.pairwise_map.mp (List.chain'_iff_pairwise.mp hch)
  have hmape : ∃ p ∈ s.map, EquivC lt p.1 v :=
    ⟨(q.2, q.1), hperm.mem_iff.mp (List.mem_map.mpr ⟨q, hq, rfl⟩), hqe⟩
  have hst := mapInsert_not_found lt v s.nextId htr s.map hpw hmape
  rcases hm : mapInsert lt v s.nextId s.map with ⟨m1, i, st⟩
  rw [hm] at hst
  simp only at hst
  subst hst
  have hfalse := mapInsert_false lt v s.nextId s.map (by rw [hm])
  rw [hm] at hfalse
  simp only at hfalse
  obtain ⟨-, a, hai, hae⟩ := hfalse
  have : (a, i) ∈ s.list.map (fun q => (q.2, q.1)) := hperm.mem_iff.mpr hai
  obtain ⟨q2, hq2, hq2e⟩ := List.mem_map.mp this
  have hq2' : q2 = (i, a) := by
    obtain ⟨x, y⟩ := q2
    simp only [Prod.mk.injEq] at hq2e
    simp [hq2e.1, hq2e.2]
  rw [hq2'] at hq2
  obtain ⟨hlt2, hget⟩ := idxOfId_mem i a s.list hnd hq2
  simp only [pushBackUL, insertUL, hm]
  refine ⟨trivial, trivial, hlt2, ?_⟩
  rw [hget]
  exact hae

/- Concrete comparator facts used to instantiate hypotheses -/

theorem qltTrans : LtTrans qlt := by
  intro a b c hab hbc
  simp only [qlt, decide_eq_true_eq] at *
  exact lt_trans hab hbc

theorem qltIrrefl : LtIrrefl qlt := by
  intro a
  simp [qlt]

theorem WF_sampleQ : WF qlt (⟨1, [(0, 1)], [(1, 0)]⟩ : UL ℚ) :=
  ⟨by simp [sortedValues], by decide, by decide, by decide⟩

/- Claim theorems -/

/-- C1: for a well-formed container state and a transitive comparator,
push_back(v) appends v as the last sequence element and returns
(size, true) when no live element is comparator-equivalent to v; when one
is, it returns that element's current sequence position with isNew = false
and leaves the container state unchanged. -/
theorem C1_push_back_dedup [DecidableEq α] (lt : α → α → Bool) (s : UL α)
    (v : α) (htr : LtTrans lt) (hwf : WF lt s) :
    ((∀ p ∈ s.list, ¬ EquivC lt p.2 v) →
      (pushBackUL lt s v).1.list = s.list ++ [(s.nextId, v)] ∧
      (pushBackUL lt s v).2 = (s.list.length, true)) ∧
    ((∃ p ∈ s.list, EquivC lt p.2 v) →
      (pushBackUL lt s v).1 = s ∧ (pushBackUL lt s v).2.2 = false ∧
      ∃ h : (pushBackUL lt s v).2.1 < s.list.length,
        EquivC lt (s.list.get ⟨(pushBackUL lt s v).2.1, h⟩).2 v) :=
  ⟨fun h => pushBackUL_new lt s v hwf h,
   fun h => pushBackUL_dup lt s v htr hwf h⟩

/-- Witness for C1 on concrete input: pushing 2 onto a one-element
container holding 1 appends it at position 1; pushing 1 again is a no-op
reporting position 0. -/
theorem C1_push_back_dedup_witness :
    ((pushBackUL qlt (⟨1, [(0, 1)], [(1, 0)]⟩ : UL ℚ) 2).1.list =
        [(0, 1), (1, 2)] ∧
      (pushBackUL qlt (⟨1, [(0, 1)], [(1, 0)]⟩ : UL ℚ) 2).2 = (1, true)) ∧
    ((pushBackUL qlt (⟨1, [(0, 1)], [(1, 0)]⟩ : UL ℚ) 1).1 =
        (⟨1, [(0, 1)], [(1, 0)]⟩ : UL ℚ) ∧
      (pushBackUL qlt (⟨1, [(0, 1)], [(1, 0)]⟩ : UL ℚ) 1).2.2 = false) := by
  have h1 := (C1_push_back_dedup qlt (⟨1, [(0, 1)], [(1, 0)]⟩ : UL ℚ) 2
    qltTrans WF_sampleQ).1 (by decide)
  have h2 := (C1_push_back_dedup qlt (⟨1, [(0, 1)], [(1, 0)]⟩ : UL ℚ) 1
    qltTrans WF_sampleQ).2 (by decide)
  exact ⟨⟨by rw [h1.1]; rfl, h1.2⟩, h2.1, h2.2.1⟩

/-- C2: bulk erase with strictly increasing in-range indices (pre-call
sequence coordinates) removes exactly the elements at those positions and
no others, preserving the relative order of the survivors: the cursor
advance by indexes[i] - prev_pos - 1 exactly compensates for the elements
already removed earlier in the same call. -/
theorem C2_bulk_erase [DecidableEq α] (s : UL α) (idxs : List Nat)
    (hinc : List.Chain' (· < ·) idxs)
    (hbound : ∀ i ∈ idxs, i < s.list.length) :
    (eraseBulkUL s idxs).list = removeFromPos s.list idxs 0 :=
  eraseBulkUL_list s idxs hinc hbound

/-- Witness for C2 on concrete input: erasing positions 0, 2 and 4 from a
five-element sequence keeps exactly positions 1 and 3, in order. -/
theorem C2_bulk_erase_witness :
    (eraseBulkUL
      (⟨5, [(0, 1), (1, 2), (2, 3), (3, 4), (4, 5)],
          [(1, 0), (2, 1), (3, 2), (4, 3), (5, 4)]⟩ : UL ℚ)
      [0, 2, 4]).list = [(1, 2), (3, 4)] := by
  have h := C2_bulk_erase
    (⟨5, [(0, 1), (1, 2), (2, 3), (3, 4), (4, 5)],
        [(1, 0), (2, 1), (3, 2), (4, 3), (5, 4)]⟩ : UL ℚ)
    [0, 2, 4] (by norm_num [List.chain'_cons]) (by decide)
  rw [h]
  rfl

/-- C4: when the hook raises (models: returns none), the container is left
exactly in its pre-call state: the tentative sorted-index entry has
already been erased when the hook runs, and the sequence node is created
only after the hook succeeds.  The freshness hypothesis (no live link
equals the allocation counter) holds in every well-formed state. -/
theorem C4_hook_failure [DecidableEq α] (lt : α → α → Bool) (s : UL α)
    (pos : Nat) (v : α) (f : α → Option α)
    (hfresh : ∀ p ∈ s.map, p.2 ≠ s.nextId) (hf : f v = none) :
    (insertWithHookE lt s pos v f).1 = s ∧
    ((insertWithHookE lt s pos v f).2 = none ∨
      ∃ i, (insertWithHookE lt s pos v f).2 = some (i, false)) := by
  rcases hm : mapInsert lt v s.nextId s.map with ⟨m1, i, st⟩
  cases st with
  | false =>
    simp only [insertWithHookE, hm]
    exact ⟨trivial, Or.inr ⟨idxOfId s.list i, rfl⟩⟩
  | true =>
    have he : mapEraseId s.nextId m1 = s.map := by
      have := mapEraseId_mapInsert lt v s.nextId s.map hfresh (by rw [hm])
      rw [hm] at this
      exact this
    simp only [insertWithHookE, hm, hf, he]
    exact ⟨trivial, Or.inl trivial⟩

/-- Witness for C4 on concrete input: a hook that raises leaves the
one-element container untouched and lets the exception propagate. -/
theorem C4_hook_failure_witness :
    (insertWithHookE qlt (⟨1, [(0, 1)], [(1, 0)]⟩ : UL ℚ) 1 2
        (fun _ => none)).1 = (⟨1, [(0, 1)], [(1, 0)]⟩ : UL ℚ) ∧
    ((insertWithHookE qlt (⟨1, [(0, 1)], [(1, 0)]⟩ : UL ℚ) 1 2
        (fun _ => none)).2 = none ∨
      ∃ i, (insertWithHookE qlt (⟨1, [(0, 1)], [(1, 0)]⟩ : UL ℚ) 1 2
        (fun _ => none)).2 = some (i, false)) :=
  C4_hook_failure qlt (⟨1, [(0, 1)], [(1, 0)]⟩ : UL ℚ) 1 2 (fun _ => none)
    (by decide) rfl

/-- Counterexample for C5: the code computes a < b - |b|*rtol - atol with
no max(|b|, ulp) floor on the relative term.  Taking ulp as the smallest
positive double 2^-1074 (exactly representable, as are all numbers here),
at b = 0, rtol = 2^60, atol = 0 the spec formula's envelope is -2^-1014
while the code's is 0: the double a = -2^-1020 is reported strictly less
by the code but not by the spec formula. -/
theorem C5_counterexample :
    strictlyLessQ (2 ^ 60) 0 (-(1 / 2 ^ 1020)) 0 = true ∧
    ¬ ((-(1 / 2 ^ 1020) : ℚ) <
        0 - max |(0 : ℚ)| (1 / 2 ^ 1074) * 2 ^ 60 - 0) := by
  constructor
  · rw [strictlyLessQ_iff]
    norm_num
  · norm_num

/-- C5 amended: the scalar tolerance comparator returns true exactly when
a < b - |b|*rtol - atol (there is no ulp floor on the relative term), and
two scalars are comparator-equivalent (mutually non-less-than, hence in
the same dedup bucket) exactly when neither is below the other's
envelope. -/
theorem C5_tolerance_scalar (rtol atol a b : ℚ) :
    (strictlyLessQ rtol atol a b = true ↔ a < b - |b| * rtol - atol) ∧
    (EquivC (strictlyLessQ rtol atol) a b ↔
      ¬ (a < b - |b| * rtol - atol) ∧ ¬ (b < a - |a| * rtol - atol)) := by
  refine ⟨strictlyLessQ_iff rtol atol a b, ?_⟩
  unfold EquivC
  constructor
  · rintro ⟨h1, h2⟩
    refine ⟨fun hc => ?_, fun hc => ?_⟩
    · rw [(strictlyLessQ_iff rtol atol a b).mpr hc] at h1
      exact absurd h1 (by simp)
    · rw [(strictlyLessQ_iff rtol atol b a).mpr hc] at h2
      exact absurd h2 (by simp)
  · rintro ⟨h1, h2⟩
    constructor
    · rcases hb : strictlyLessQ rtol atol a b with _ | _
      · rfl
      · exact absurd ((strictlyLessQ_iff rtol atol a b).mp hb) h1
    · rcases hb : strictlyLessQ rtol atol b a with _ | _
      · rfl
      · exact absurd ((strictlyLessQ_iff rtol atol b a).mp hb) h2

/-- C9: isin(v) returns true precisely when some live element of the
sequence is comparator-equivalent to v (neither compares below the
other), for well-formed states and a transitive comparator. -/
theorem C9_isin_equiv (lt : α → α → Bool) (s : UL α) (v : α)
    (htr : LtTrans lt) (hwf : WF lt s) :
    isinUL lt s v = true ↔ ∃ p ∈ s.list, EquivC lt p.2 v := by
  obtain ⟨hch, hperm, -, -⟩ := hwf
  haveI : IsTrans α (fun a b => lt a b = true) := ⟨htr⟩
  have hpw : List.Pairwise (fun p q : α × Nat => lt p.1 q.1 = true) s.map :=
    List.pairwise_map.mp (List.chain'_iff_pairwise.mp hch)
  rw [show isinUL lt s v = mapCount lt v s.map from rfl,
    mapCount_iff lt v htr s.map hpw]
  constructor
  · rintro ⟨p, hp, he⟩
    have : p ∈ s.list.map (fun q => (q.2, q.1)) := hperm.mem_iff.mpr hp
    obtain ⟨q, hq, hqe⟩ := List.mem_map.mp this
    have he2 : q.2 = p.1 := congrArg Prod.fst hqe
    exact ⟨q, hq, he2 ▸ he⟩
  · rintro ⟨q, hq, he⟩
    exact ⟨(q.2, q.1), hperm.mem_iff.mp (List.mem_map.mpr ⟨q, hq, rfl⟩), he⟩

/-- Witness for C9 on concrete input: the container holding 1 reports 1
as contained and, by the same equivalence, does not report 2. -/
theorem C9_isin_equiv_witness :
    isinUL qlt (⟨1, [(0, 1)], [(1, 0)]⟩ : UL ℚ) 1 = true ∧
    isinUL qlt (⟨1, [(0, 1)], [(1, 0)]⟩ : UL ℚ) 2 ≠ true := by
  constructor
  · exact (C9_isin_equiv qlt (⟨1, [(0, 1)], [(1, 0)]⟩ : UL ℚ) 1 qltTrans
      WF_sampleQ).mpr (by decide)
  · intro h
    have := (C9_isin_equiv qlt (⟨1, [(0, 1)], [(1, 0)]⟩ : UL ℚ) 2 qltTrans
      WF_sampleQ).mp h
    exact absurd this (by decide)

/-- C10: a hook that hands back its argument unchanged makes
insert_with_hook (tentative insert, erase, hint re-insert) observationally
identical, state and return value, to the plain insert path, and
push_back_with_hook identical to push_back.  The freshness hypothesis
holds in every well-formed state. -/
theorem C10_identity_hook_refines [DecidableEq α] (lt : α → α → Bool)
    (s : UL α) (pos : Nat) (v : α) (f : α → α)
    (hfresh : ∀ p ∈ s.map, p.2 ≠ s.nextId) (hf : f v = v) :
    insertWithHook lt s pos v f = insertUL lt s pos v ∧
    pushBackWithHook lt s v f = pushBackUL lt s v :=
  ⟨insertWithHook_eq_insertUL lt s pos v f hfresh hf,
   insertWithHook_eq_insertUL lt s s.list.length v f hfresh hf⟩

/-- Witness for C10 on concrete input: inserting 2 through the hook path
with the identity hook produces exactly the state and return value of the
plain paths. -/
theorem C10_identity_hook_refines_witness :
    insertWithHook qlt (⟨1, [(0, 1)], [(1, 0)]⟩ : UL ℚ) 0 2 (fun x => x) =
      insertUL qlt (⟨1, [(0, 1)], [(1, 0)]⟩ : UL ℚ) 0 2 ∧
    pushBackWithHook qlt (⟨1, [(0, 1)], [(1, 0)]⟩ : UL ℚ) 2 (fun x => x) =
      pushBackUL qlt (⟨1, [(0, 1)], [(1, 0)]⟩ : UL ℚ) 2 :=
  C10_identity_hook_refines qlt (⟨1, [(0, 1)], [(1, 0)]⟩ : UL ℚ) 0 2
    (fun x => x) (by decide) rfl

/-- C3 amended: push_back_with_hook / insert_with_hook invoke the hook
exactly once when the returned isNew is true and zero times when it is
false; moreover, whenever the hook is invoked and its result is not
comparator-equivalent to any pre-existing live element (deepcopy hands
back its argument's value, so this always holds for it), the hook's
result is the value stored at the newly linked node.  Container states
are the well-formed ones. -/
theorem C3_hook_invocation [DecidableEq α] (lt : α → α → Bool) (s : UL α)
    (pos : Nat) (v : α) (f : α → α) (hwf : WF lt s) :
    ((insertWithHookTraced lt s pos v f).1.2.2 = true →
      (insertWithHookTraced lt s pos v f).2 = [v]) ∧
    ((insertWithHookTraced lt s pos v f).1.2.2 = false →
      (insertWithHookTraced lt s pos v f).2 = []) ∧
    ((insertWithHookTraced lt s pos v f).1.2.2 = true →
      (∀ p ∈ s.list, ¬ EquivC lt p.2 (f v)) →
      (insertWithHookTraced lt s pos v f).1.1.list =
        insIdx (s.nextId, f v) pos s.list) := by
  obtain ⟨hch, hperm, hfr, hnd⟩ := hwf
  have hfresh : ∀ p ∈ s.map, p.2 ≠ s.nextId := by
    intro p hp
    have := hfr p hp
    omega
  rcases hm : mapInsert lt v s.nextId s.map with ⟨m1, i, st⟩
  cases st with
  | false =>
    have e1 : (insertWithHookTraced lt s pos v f).1.2.2 = false := by
      simp only [insertWithHookTraced, hm]
    have e2 : (insertWithHookTraced lt s pos v f).2 = [] := by
      simp only [insertWithHookTraced, hm]
    refine ⟨fun h => ?_, fun _ => e2, fun h => ?_⟩
    · rw [e1] at h
      exact absurd h (by simp)
    · rw [e1] at h
      exact absurd h (by simp)
  | true =>
    have he : mapEraseId s.nextId m1 = s.map := by
      have := mapEraseId_mapInsert lt v s.nextId s.map hfresh (by rw [hm])
      rw [hm] at this
      exact this
    have e1 : (insertWithHookTraced lt s pos v f).1.2.2 = true := by
      simp only [insertWithHookTraced, hm]
    have e2 : (insertWithHookTraced lt s pos v f).2 = [v] := by
      simp only [insertWithHookTraced, hm]
    refine ⟨fun _ => e2, fun h => ?_, fun _ hne => ?_⟩
    · rw [e1] at h
      exact absurd h (by simp)
    simp only [insertWithHookTraced, hm, he]
    have hnomap : ∀ p ∈ s.map, ¬ EquivC lt p.1 (f v) := by
      intro p hp
      have : p ∈ s.list.map (fun q => (q.2, q.1)) := hperm.mem_iff.mpr hp
      obtain ⟨q, hq, hqe⟩ := List.mem_map.mp this
      have he2 : q.2 = p.1 := congrArg Prod.fst hqe
      rw [← he2]
      exact hne q hq
    have hst2 := mapInsert_true_of_no_equiv lt (f v) s.nextId s.map hnomap
    have ha := mapInsertAssign_of_true lt (f v) s.nextId s.map hst2
    simp [ha]

/-- Witness for C3 on concrete input: pushing the new value 2 with the
identity hook reports one hook invocation on 2 and stores the hook's
result at the new node; re-inserting the live value 1 invokes the hook
zero times. -/
theorem C3_hook_invocation_witness :
    (insertWithHookTraced qlt (⟨1, [(0, 1)], [(1, 0)]⟩ : UL ℚ) 1 2
      (fun x => x)).2 = [2] ∧
    (insertWithHookTraced qlt (⟨1, [(0, 1)], [(1, 0)]⟩ : UL ℚ) 1 1
      (fun x => x)).2 = [] ∧
    (insertWithHookTraced qlt (⟨1, [(0, 1)], [(1, 0)]⟩ : UL ℚ) 1 2
      (fun x => x)).1.1.list = insIdx (1, 2) 1 [(0, 1)] := by
  have h1 := C3_hook_invocation qlt (⟨1, [(0, 1)], [(1, 0)]⟩ : UL ℚ) 1 2
    (fun x => x) WF_sampleQ
  have h2 := C3_hook_invocation qlt (⟨1, [(0, 1)], [(1, 0)]⟩ : UL ℚ) 1 1
    (fun x => x) WF_sampleQ
  exact ⟨h1.1 (by decide), h2.2.1 (by decide), h1.2.2 (by decide) (by decide)⟩

/-- Counterexample to C3 as stated: with the integral tolerance
comparator (rtol = 0, atol = 2) on a container holding 10, pushing the
new value 5 with a hook returning 11 reports isNew = true and invokes the
hook, yet the hook's result 11 is not the value stored anywhere: 11 falls
in the tolerance envelope of the live element 10, the hint re-insert
finds that entry and keeps its key 10, and the new sequence node is
linked to it. -/
theorem C3_hook_counterexample :
    (insertWithHookTraced (strictlyLessZ 2)
        (⟨1, [(0, 10)], [(10, 0)]⟩ : UL ℤ) 1 5 (fun _ => 11)).1.2.2 =
      true ∧
    (insertWithHookTraced (strictlyLessZ 2)
        (⟨1, [(0, 10)], [(10, 0)]⟩ : UL ℤ) 1 5 (fun _ => 11)).2 = [5] ∧
    ∀ p ∈ (insertWithHookTraced (strictlyLessZ 2)
        (⟨1, [(0, 10)], [(10, 0)]⟩ : UL ℤ) 1 5 (fun _ => 11)).1.1.list,
      p.2 ≠ 11 := by
  decide

/-- C6: erase_nonzero removes exactly the elements at the truthy flag
positions, preserving the relative order of the survivors; with all-false
flags the whole state is untouched; with all-true flags of length size()
(the documented precondition) both the sequence and the sorted index
become empty, for well-formed states under a strict-weak-order
comparator. -/
theorem C6_erase_nonzero [DecidableEq α] (lt : α → α → Bool) (s : UL α)
    (flags : List Bool) (n : Nat) :
    ((eraseNonzeroUL s flags).list = keepUnflagged s.list flags) ∧
    (eraseNonzeroUL s (List.replicate n false) = s) ∧
    (LtTrans lt → LtIrrefl lt → WF lt s →
      (eraseNonzeroUL s (List.replicate s.list.length true)).list = [] ∧
      (eraseNonzeroUL s (List.replicate s.list.length true)).map = []) := by
  refine ⟨eraseNonzeroUL_list s flags, eraseNonzeroLoop_all_false n s 0, ?_⟩
  intro htr hirr hwf
  have hl : (eraseNonzeroUL s (List.replicate s.list.length true)).list = [] := by
    rw [eraseNonzeroUL_list]
    exact keepUnflagged_all_true s.list
  have hwf2 : WF lt (eraseNonzeroUL s (List.replicate s.list.length true)) :=
    WF_eraseNonzeroLoop lt htr hirr _ s 0 hwf
  obtain ⟨-, hperm, -, -⟩ := hwf2
  rw [hl] at hperm
  simp only [List.map_nil] at hperm
  exact ⟨hl, hperm.symm.eq_nil⟩

/-- Witness for C6 on concrete input: an all-true flag array empties the
one-element container, and an all-false one leaves it untouched. -/
theorem C6_erase_nonzero_witness :
    (eraseNonzeroUL (⟨1, [(0, 1)], [(1, 0)]⟩ : UL ℚ)
      (List.replicate 1 true)).list = [] ∧
    (eraseNonzeroUL (⟨1, [(0, 1)], [(1, 0)]⟩ : UL ℚ)
      (List.replicate 1 true)).map = [] ∧
    eraseNonzeroUL (⟨1, [(0, 1)], [(1, 0)]⟩ : UL ℚ)
      (List.replicate 1 false) = (⟨1, [(0, 1)], [(1, 0)]⟩ : UL ℚ) := by
  have h := C6_erase_nonzero qlt (⟨1, [(0, 1)], [(1, 0)]⟩ : UL ℚ)
    (List.replicate 1 true) 1
  have h3 := h.2.2 qltTrans qltIrrefl WF_sampleQ
  exact ⟨h3.1, h3.2, h.2.1⟩

/-- C7: after any valid sequence of insert-family and erase-family
operations starting from the empty container, the sequence iteration
begin()..end() and the sorted iteration sbegin()..send() visit the same
multiset of live elements, and the sorted iteration is in ascending order
of the active comparator (a strict weak ordering).  The sequence side is,
by construction, the insertion order as adjusted by positional inserts
and erasures. -/
theorem C7_iteration_agreement [DecidableEq α] (lt : α → α → Bool)
    (ops : List (Op α)) (htr : LtTrans lt) (hirr : LtIrrefl lt)
    (hv : ValidSeq lt emptyUL ops) :
    (seqValues (execUL lt emptyUL ops)).Perm
      (sortedValues (execUL lt emptyUL ops)) ∧
    List.Chain' (fun a b => lt a b = true)
      (sortedValues (execUL lt emptyUL ops)) := by
  have hwf := WF_execUL lt htr hirr ops emptyUL hv (WF_empty lt)
  obtain ⟨hch, hperm, -, -⟩ := hwf
  refine ⟨?_, hch⟩
  have := hperm.map Prod.fst
  simpa [seqValues, sortedValues, List.map_map, Function.comp] using this

/-- Witness for C7 on a concrete program: push 1 and 2, erase position 0,
insert 3 at position 0; both iteration orders hold exactly the classes 2
and 3, and the sorted order ascends. -/
theorem C7_iteration_agreement_witness :
    (seqValues (execUL qlt emptyUL
        [Op.pushBackOp (1 : ℚ), Op.pushBackOp 2, Op.eraseOp 0,
          Op.insertOp 0 3])).Perm
      (sortedValues (execUL qlt emptyUL
        [Op.pushBackOp (1 : ℚ), Op.pushBackOp 2, Op.eraseOp 0,
          Op.insertOp 0 3])) ∧
    List.Chain' (fun a b => qlt a b = true)
      (sortedValues (execUL qlt emptyUL
        [Op.pushBackOp (1 : ℚ), Op.pushBackOp 2, Op.eraseOp 0,
          Op.insertOp 0 3])) :=
  C7_iteration_agreement qlt
    [Op.pushBackOp (1 : ℚ), Op.pushBackOp 2, Op.eraseOp 0, Op.insertOp 0 3]
    qltTrans qltIrrefl
    (ValidSeq.cons trivial (ValidSeq.cons trivial (ValidSeq.cons trivial
      (ValidSeq.cons (Nat.zero_le _) (ValidSeq.nil _)))))

/-- C8: the buffer comparison used for deduplication is shortlex: a
shorter buffer always compares less and a longer one greater, whatever
the contents; buffers of equal size are compared element by element left
to right by the active scalar comparator and the first element strictly
related in either direction decides; if no element is, the two buffers
are comparator-equivalent (one dedup bucket).  Instantiating lt with the
raw scalar comparison gives sized_ptr operator<, which is the same
algorithm. -/
theorem C8_shortlex (lt : α → α → Bool) (l r : List α) :
    (l.length < r.length → sizedLess lt l r = true) ∧
    (r.length < l.length → sizedLess lt l r = false) ∧
    (l.length = r.length →
      (sizedLess lt l r = true ↔
        ∃ (i : Nat) (hl : i < l.length) (hr : i < r.length),
          lt (l.get ⟨i, hl⟩) (r.get ⟨i, hr⟩) = true ∧
          ∀ (j : Nat) (hl2 : j < l.length) (hr2 : j < r.length), j < i →
            lt (l.get ⟨j, hl2⟩) (r.get ⟨j, hr2⟩) = false ∧
            lt (r.get ⟨j, hr2⟩) (l.get ⟨j, hl2⟩) = false)) ∧
    (l.length = r.length →
      (∀ (i : Nat) (hl : i < l.length) (hr : i < r.length),
        EquivC lt (l.get ⟨i, hl⟩) (r.get ⟨i, hr⟩)) →
      EquivC (sizedLess lt) l r) := by
  have haux : l.length = r.length →
      (sizedLess lt l r = true ↔
        ∃ (i : Nat) (hl : i < l.length) (hr : i < r.length),
          lt (l.get ⟨i, hl⟩) (r.get ⟨i, hr⟩) = true ∧
          ∀ (j : Nat) (hl2 : j < l.length) (hr2 : j < r.length), j < i →
            lt (l.get ⟨j, hl2⟩) (r.get ⟨j, hr2⟩) = false ∧
            lt (r.get ⟨j, hr2⟩) (l.get ⟨j, hl2⟩) = false) := by
    intro h
    have h1 : ¬ l.length < r.length := by omega
    have h2 : ¬ r.length < l.length := by omega
    simp only [sizedLess, h1, h2, if_false]
    exact sizedLessAux_iff lt l r h
  have haux2 : r.length = l.length →
      (sizedLess lt r l = true ↔
        ∃ (i : Nat) (hl : i < r.length) (hr : i < l.length),
          lt (r.get ⟨i, hl⟩) (l.get ⟨i, hr⟩) = true ∧
          ∀ (j : Nat) (hl2 : j < r.length) (hr2 : j < l.length), j < i →
            lt (r.get ⟨j, hl2⟩) (l.get ⟨j, hr2⟩) = false ∧
            lt (l.get ⟨j, hr2⟩) (r.get ⟨j, hl2⟩) = false) := by
    intro h
    have h1 : ¬ r.length < l.length := by omega
    have h2 : ¬ l.length < r.length := by omega
    simp only [sizedLess, h1, h2, if_false]
    exact sizedLessAux_iff lt r l h
  refine ⟨?_, ?_, haux, ?_⟩
  · intro h
    simp [sizedLess, h]
  · intro h
    have h2 : ¬ l.length < r.length := by omega
    simp [sizedLess, h, h2]
  · intro h hequiv
    constructor
    · cases hb : sizedLess lt l r with
      | false => rfl
      | true =>
        exfalso
        obtain ⟨i, hl, hr, hlt, -⟩ := (haux h).mp hb
        have := (hequiv i hl hr).1
        rw [this] at hlt
        exact Bool.false_ne_true hlt
    · cases hb : sizedLess lt r l with
      | false => rfl
      | true =>
        exfalso
        obtain ⟨i, hl, hr, hlt, -⟩ := (haux2 h.symm).mp hb
        have := (hequiv i hr hl).2
        rw [this] at hlt
        exact Bool.false_ne_true hlt

/-- Witness for C8 on concrete input: a shorter buffer compares less
whatever its contents; on equal sizes the first comparator-deciding
element wins. -/
theorem C8_shortlex_witness :
    sizedLess qlt [9] [2, 3] = true ∧
    sizedLess qlt [2, 3] [9] = false ∧
    sizedLess qlt [2, 3] [2, 4] = true := by
  refine ⟨(C8_shortlex qlt [9] [2, 3]).1 (by decide),
    (C8_shortlex qlt [2, 3] [9]).2.1 (by decide), ?_⟩
  refine ((C8_shortlex qlt [2, 3] [2, 4]).2.2.1 (by decide)).mpr
    ⟨1, by decide, by decide, by decide, ?_⟩
  intro j hl2 hr2 hj
  have hj0 : j = 0 := by omega
  subst hj0
  exact ⟨(by decide : qlt 2 2 = false), (by decide : qlt 2 2 = false)⟩

end Uniquelist
